import Mathlib

/-!
Verification of the `VisitsInIntervalMetric` of `mafContrib/VisitsInIntervalMetric.py`.

The Python metric is shallowly embedded below.  Timestamps and durations are
modelled as rationals (`ℚ`), the integer parameters `minVisits` and `nPairs`
as `ℤ`.  A Python function that can raise an unhandled exception is modelled
with `Option`: `none` stands for an uncaught runtime error (the `NameError`
raised by the final `return result`, or an `AssertionError` from the
diagonal assertion of the pair loop), `some b` for a normal boolean return.
-/

/-- Configuration of the metric, the four scalar fields stored by
`VisitsInIntervalMetric.__init__` (the time column name is abstracted away:
the embedding works directly on the timestamp column). -/
structure VisitsInIntervalMetric where
  intervalLength : ℚ
  minVisits : ℤ
  nPairs : ℤ
  minPairGap : ℚ
deriving DecidableEq

/-- Embedding of `VisitsInIntervalMetric.__init__`: the four `assert`
statements are run in order; an assertion failure is `none`, otherwise the
configuration object is produced. -/
def VisitsInIntervalMetric.build (intervalLength : ℚ) (minVisits nPairs : ℤ)
    (minPairGap : ℚ) : Option VisitsInIntervalMetric :=
  if 2 ≤ minVisits then
    if 0 ≤ nPairs then
      if 0 ≤ minPairGap then
        if nPairs ≤ minVisits + 1 then
          some ⟨intervalLength, minVisits, nPairs, minPairGap⟩
        else none
      else none
    else none
  else none

/-- The configuration invariants checked by the constructor (§3 of the spec). -/
def validConfig (m : VisitsInIntervalMetric) : Prop :=
  2 ≤ m.minVisits ∧ 0 ≤ m.nPairs ∧ 0 ≤ m.minPairGap ∧ m.nPairs ≤ m.minVisits + 1

instance (m : VisitsInIntervalMetric) : Decidable (validConfig m) := by
  unfold validConfig
  infer_instance

/-- Embedding of `dataSlice.sort(order=self.timeCol)` restricted to the
timestamp column: an ascending sort of the timestamps. -/
def sortTimes (ts : List ℚ) : List ℚ :=
  ts.insertionSort (· ≤ ·)

/-- Embedding of `w = (t >= ti0) & (t <= timax)` followed by `t[w]`:
the sub-collection of `t` lying in the window `[ti0, ti0 + intervalLength]`. -/
def windowOf (m : VisitsInIntervalMetric) (t : List ℚ) (ti0 : ℚ) : List ℚ :=
  t.filter (fun x => decide (ti0 ≤ x) && decide (x ≤ ti0 + m.intervalLength))

/-- Embedding of `np.where(row >= self.minPairGap)[0]` followed by taking
element `0`: the index of the first entry of `row` that is at least `gap`. -/
def firstGapIdx (gap : ℚ) : List ℚ → Option ℕ
  | [] => none
  | d :: ds => if gap ≤ d then some 0 else (firstGapIdx gap ds).map (· + 1)

/-- Embedding of the greedy pair loop `for i in range(len(tw)): ...` of
`VisitsInIntervalMetric.run`.  The first argument list is the remaining
iteration range (`run` passes `List.range tw.length`), the two naturals are
the mutable variables `pairStart` and `nPairsFound`.  The matrix entry
`dt[i, j]` of the source equals `tw[j] - tw[i]`, so the row
`dt[i, pairStart:]` is `(tw.drop pairStart).map (fun x => x - tw[i])` and
the diagonal assertion `assert (dt[i, pairStart] == 0)` checks
`tw[pairStart] - tw[i] == 0`; its failure is modelled as `none`.  Falling
off the end of the loop reaches the trailing `return False` of the anchor
loop body, hence `some false`. -/
def pairLoop (m : VisitsInIntervalMetric) (tw : List ℚ) :
    List ℕ → ℕ → ℕ → Option Bool
  | [], _, _ => some false
  | i :: is, pairStart, nPairsFound =>
    if i < pairStart then
      pairLoop m tw is pairStart nPairsFound
    else if tw.getD pairStart 0 - tw.getD i 0 ≠ 0 then
      none
    else
      match firstGapIdx m.minPairGap
          ((tw.drop pairStart).map (fun x => x - tw.getD i 0)) with
      | some k =>
        if m.nPairs ≤ (nPairsFound : ℤ) + 1 then some true
        else pairLoop m tw is (pairStart + k) (nPairsFound + 1)
      | none => pairLoop m tw is (pairStart + 1) nPairsFound

/-- Embedding of one iteration of the anchor loop body of
`VisitsInIntervalMetric.run` for the anchor `ti0`: the `minVisits` count
test, the pair-check-disabled shortcut, and the greedy pair loop.  Every
path of the body returns: `True` inside, or the trailing `return False`. -/
def anchorBody (m : VisitsInIntervalMetric) (t : List ℚ) (ti0 : ℚ) :
    Option Bool :=
  let w := windowOf m t ti0
  if m.minVisits ≤ (w.length : ℤ) then
    if m.nPairs = 0 ∨ m.minPairGap = 0 then some true
    else pairLoop m w (List.range w.length) 0 0
  else some false

/-- Embedding of `for ti0 in t: ... return result`.  Because the loop body
ends in `return False` on every path that did not already return, only the
first anchor is ever examined; with no anchor at all the function falls
through to `return result`, a `NameError` on the undefined name `result`,
modelled as `none`. -/
def anchorLoop (m : VisitsInIntervalMetric) (t : List ℚ) :
    List ℚ → Option Bool
  | [] => none
  | ti0 :: _ => anchorBody m t ti0

/-- Embedding of `VisitsInIntervalMetric.run` on the timestamp column:
sort, then run the anchor loop over the sorted timestamps. -/
def VisitsInIntervalMetric.run (m : VisitsInIntervalMetric) (ts : List ℚ) :
    Option Bool :=
  let t := sortTimes ts
  anchorLoop m t t

/-- Comparison of two records by their timestamp field, the key used by
`dataSlice.sort(order=self.timeCol)`. -/
def leFst {α : Type} (a b : ℚ × α) : Prop :=
  a.1 ≤ b.1

instance {α : Type} : DecidableRel (leFst (α := α)) :=
  fun a b => inferInstanceAs (Decidable (a.1 ≤ b.1))

instance {α : Type} : IsTotal (ℚ × α) leFst :=
  ⟨fun a b => le_total a.1 b.1⟩

instance {α : Type} : IsTrans (ℚ × α) leFst :=
  ⟨fun _ _ _ h₁ h₂ => le_trans h₁ h₂⟩

/-- Embedding of the in-place `dataSlice.sort(order=self.timeCol)` on full
records: each record is a timestamp paired with an arbitrary payload (the
other columns), and the array is sorted ascending by the timestamp field.
The returned list is the caller-visible state of the array after the call. -/
def sortDataSlice {α : Type} (ds : List (ℚ × α)) : List (ℚ × α) :=
  ds.insertionSort leFst

/-- Embedding of `VisitsInIntervalMetric.run` on full records: sort the
records in place by the time column, extract the column, and run the anchor
loop. -/
def VisitsInIntervalMetric.runRecords {α : Type} (m : VisitsInIntervalMetric)
    (ds : List (ℚ × α)) : Option Bool :=
  let t := (sortDataSlice ds).map Prod.fst
  anchorLoop m t t

/-- Fuelled form of the greedy pair counter described in §4.1 step d of the
specification: from the head `x` of the remaining sorted window, find the
first later element `y` with `y - x ≥ gap`; if found, count one pair and
continue from `y`; otherwise give up on `x` and continue from the next
element.  The fuel only makes the recursion structural; `greedyPairCount`
supplies enough fuel for it never to run out. -/
def greedyRun (gap : ℚ) : ℕ → List ℚ → ℕ
  | 0, _ => 0
  | _ + 1, [] => 0
  | fuel + 1, x :: rest =>
    match firstGapIdx gap (rest.map (fun y => y - x)) with
    | some k => 1 + greedyRun gap fuel (rest.drop k)
    | none => greedyRun gap fuel rest

/-- Number of pairs found by the greedy single pass of §4.1 step d over a
sorted window. -/
def greedyPairCount (gap : ℚ) (w : List ℚ) : ℕ :=
  greedyRun gap w.length w

/-- Pass/fail of a single anchor as described by §4.1 steps a–e of the
specification: the window must hold at least `minVisits` points and, when
pair checking is enabled, the greedy single pass must find at least
`nPairs` pairs. -/
def anchorPass (m : VisitsInIntervalMetric) (t : List ℚ) (t0 : ℚ) : Bool :=
  let w := windowOf m t t0
  decide (m.minVisits ≤ (w.length : ℤ)) &&
    (decide (m.nPairs = 0) || decide (m.minPairGap = 0) ||
      decide (m.nPairs ≤ (greedyPairCount m.minPairGap w : ℤ)))

/-- Reference evaluator following the specification's description of the
reference behavior (§4.1, critical correctness note): sort, evaluate only
the first anchor in sorted order, and return its pass/fail result
unconditionally; an empty input has no anchor and yields `false`. -/
def specFirstAnchorEval (m : VisitsInIntervalMetric) (ts : List ℚ) : Bool :=
  let t := sortTimes ts
  match t with
  | [] => false
  | t0 :: _ => anchorPass m t t0

/-- Evaluator following the specification's output clause (§4.1, evaluation
contract): `true` iff at least one anchor `t0` taken from the input has a
passing window, every timestamp being tried as a left window edge. -/
def specMultiAnchorEval (m : VisitsInIntervalMetric) (ts : List ℚ) : Bool :=
  let t := sortTimes ts
  t.any (fun t0 => anchorPass m t t0)

attribute [local semireducible] Rat.add Rat.sub

/-- Configuration A of the self-test: `VisitsInIntervalMetric(45, 3)`. -/
def cfgA : VisitsInIntervalMetric :=
  ⟨45, 3, 0, 0⟩

/-- Configuration B of the self-test:
`VisitsInIntervalMetric(45, 3, nPairs=2, minPairGap=2.)`. -/
def cfgB : VisitsInIntervalMetric :=
  ⟨45, 3, 2, 2⟩

theorem getD_of_drop_eq_cons {l : List ℚ} {p : ℕ} {x : ℚ} {r : List ℚ}
    (h : l.drop p = x :: r) : l.getD p 0 = x := by
  induction p generalizing l with
  | zero => simp_all
  | succ n ih =>
    cases l with
    | nil => simp at h
    | cons a t => simpa using ih (by simpa using h)

theorem drop_succ_of_drop_eq_cons {l : List ℚ} {p : ℕ} {x : ℚ} {r : List ℚ}
    (h : l.drop p = x :: r) : l.drop (p + 1) = r := by
  have h1 : l.drop (p + 1) = (l.drop p).drop 1 := by
    rw [List.drop_drop]
  rw [h1, h]
  rfl

theorem firstGapIdx_none {gap : ℚ} {l : List ℚ}
    (h : firstGapIdx gap l = none) : ∀ d ∈ l, ¬ gap ≤ d := by
  induction l with
  | nil => simp
  | cons d ds ih =>
    intro e he
    by_cases hd : gap ≤ d
    · simp [firstGapIdx, hd] at h
    · rw [firstGapIdx, if_neg hd, Option.map_eq_none'] at h
      rcases List.mem_cons.mp he with he2 | he2
      · subst he2
        exact hd
      · exact ih h e he2

theorem firstGapIdx_some_lt {gap : ℚ} {l : List ℚ} {k : ℕ}
    (h : firstGapIdx gap l = some k) : k < l.length := by
  induction l generalizing k with
  | nil => simp [firstGapIdx] at h
  | cons d ds ih =>
    by_cases hd : gap ≤ d
    · simp [firstGapIdx, hd] at h
      simp only [List.length_cons]
      omega
    · rw [firstGapIdx, if_neg hd, Option.map_eq_some'] at h
      obtain ⟨k0, hk0, hk⟩ := h
      have := ih hk0
      simp only [List.length_cons]
      omega

theorem firstGapIdx_some_getD {gap : ℚ} {l : List ℚ} {k : ℕ}
    (h : firstGapIdx gap l = some k) : gap ≤ l.getD k 0 := by
  induction l generalizing k with
  | nil => simp [firstGapIdx] at h
  | cons d ds ih =>
    by_cases hd : gap ≤ d
    · simp [firstGapIdx, hd] at h
      subst h
      simpa using hd
    · rw [firstGapIdx, if_neg hd, Option.map_eq_some'] at h
      obtain ⟨k0, hk0, hk⟩ := h
      subst hk
      simpa using ih hk0

theorem firstGapIdx_some_before {gap : ℚ} {l : List ℚ} {k : ℕ}
    (h : firstGapIdx gap l = some k) : ∀ j < k, ¬ gap ≤ l.getD j 0 := by
  induction l generalizing k with
  | nil => simp [firstGapIdx] at h
  | cons d ds ih =>
    by_cases hd : gap ≤ d
    · simp [firstGapIdx, hd] at h
      omega
    · rw [firstGapIdx, if_neg hd, Option.map_eq_some'] at h
      obtain ⟨k0, hk0, hk⟩ := h
      subst hk
      intro j hj
      cases j with
      | zero => simpa using hd
      | succ j0 => simpa using ih hk0 j0 (by omega)

theorem greedyRun_fuel_eq {gap : ℚ} :
    ∀ f₁ f₂ (w : List ℚ), w.length ≤ f₁ → w.length ≤ f₂ →
      greedyRun gap f₁ w = greedyRun gap f₂ w := by
  intro f₁
  induction f₁ with
  | zero =>
    intro f₂ w h₁ h₂
    have : w = [] := List.eq_nil_of_length_eq_zero (by omega)
    subst this
    cases f₂ <;> rfl
  | succ f ih =>
    intro f₂ w h₁ h₂
    cases w with
    | nil => cases f₂ <;> rfl
    | cons x rest =>
      cases f₂ with
      | zero => simp at h₂
      | succ f₂' =>
        rw [greedyRun, greedyRun]
        cases hfg : firstGapIdx gap (rest.map (fun y => y - x)) with
        | none =>
          exact ih f₂' rest (by simpa using h₁) (by simpa using h₂)
        | some k =>
          have hlen : (rest.drop k).length ≤ rest.length :=
            List.Sublist.length_le (List.drop_sublist k rest)
          simp only []
          rw [ih f₂' (rest.drop k) (by simp at h₁ ⊢; omega) (by simp at h₂ ⊢; omega)]

theorem greedyPairCount_eq_run {gap : ℚ} {f : ℕ} {w : List ℚ}
    (h : w.length ≤ f) : greedyRun gap f w = greedyPairCount gap w :=
  greedyRun_fuel_eq f w.length w h le_rfl

theorem greedyPairCount_cons_some {gap x : ℚ} {rest : List ℚ} {k : ℕ}
    (h : firstGapIdx gap (rest.map (fun y => y - x)) = some k) :
    greedyPairCount gap (x :: rest) = 1 + greedyPairCount gap (rest.drop k) := by
  have hlen : (rest.drop k).length ≤ rest.length :=
    List.Sublist.length_le (List.drop_sublist k rest)
  rw [greedyPairCount, List.length_cons, greedyRun, h]
  show 1 + greedyRun gap rest.length (rest.drop k) = _
  rw [greedyPairCount_eq_run hlen]

theorem greedyPairCount_cons_none {gap x : ℚ} {rest : List ℚ}
    (h : firstGapIdx gap (rest.map (fun y => y - x)) = none) :
    greedyPairCount gap (x :: rest) = greedyPairCount gap rest := by
  rw [greedyPairCount, List.length_cons, greedyRun, h]
  show greedyRun gap rest.length rest = _
  rw [greedyPairCount_eq_run le_rfl]

theorem pairLoop_eq_greedy (m : VisitsInIntervalMetric) (tw : List ℚ)
    (hg : 0 < m.minPairGap) :
    ∀ (len i p c : ℕ), i ≤ p → i + len = tw.length → (c : ℤ) + 1 ≤ m.nPairs →
      pairLoop m tw (List.range' i len) p c =
        some (decide (m.nPairs ≤ (c : ℤ) +
          (greedyPairCount m.minPairGap (tw.drop p) : ℤ))) := by
  intro len
  induction len with
  | zero =>
    intro i p c hip hlen hc
    have hp : tw.length ≤ p := by omega
    rw [List.range'_zero, List.drop_eq_nil_of_le hp]
    have hfalse : ¬ (m.nPairs ≤ (c : ℤ) +
        ((greedyPairCount m.minPairGap [] : ℕ) : ℤ)) := by
      simp only [greedyPairCount, List.length_nil, greedyRun]
      push_cast
      omega
    simp [pairLoop, hfalse]
  | succ n ih =>
    intro i p c hip hlen hc
    rw [List.range'_succ]
    by_cases hlt : i < p
    · rw [pairLoop, if_pos hlt]
      exact ih (i + 1) p c (by omega) (by omega) hc
    · obtain rfl : i = p := by omega
      obtain ⟨x, rest2, hdrop⟩ : ∃ x rest2, tw.drop i = x :: rest2 := by
        cases hd : tw.drop i with
        | nil =>
          exfalso
          have := List.length_drop i tw
          rw [hd] at this
          simp at this
          omega
        | cons a b => exact ⟨a, b, rfl⟩
      have hgetD : tw.getD i 0 = x := getD_of_drop_eq_cons hdrop
      have hdropsucc : tw.drop (i + 1) = rest2 := drop_succ_of_drop_eq_cons hdrop
      rw [pairLoop, if_neg hlt, hgetD, sub_self, if_neg (by simp), hdrop,
        List.map_cons, sub_self, firstGapIdx, if_neg (not_le.mpr hg)]
      cases hfg : firstGapIdx m.minPairGap (rest2.map (fun z => z - x)) with
      | none =>
        rw [Option.map_none']
        show pairLoop m tw (List.range' (i + 1) n) (i + 1) c = _
        rw [ih (i + 1) (i + 1) c le_rfl (by omega) hc, hdropsucc,
          greedyPairCount_cons_none hfg]
      | some k0 =>
        rw [Option.map_some']
        show (if m.nPairs ≤ (c : ℤ) + 1 then some true
          else pairLoop m tw (List.range' (i + 1) n) (i + (k0 + 1)) (c + 1)) = _
        by_cases h1 : m.nPairs ≤ (c : ℤ) + 1
        · have hcount : m.nPairs ≤ (c : ℤ) +
              (greedyPairCount m.minPairGap (x :: rest2) : ℤ) := by
            rw [greedyPairCount_cons_some hfg]
            push_cast
            omega
          rw [if_pos h1]
          simp [hcount]
        · have hdd : tw.drop (i + (k0 + 1)) = rest2.drop k0 := by
            rw [show i + (k0 + 1) = (i + 1) + k0 from by omega, ← List.drop_drop,
              hdropsucc]
          rw [if_neg h1,
            ih (i + 1) (i + (k0 + 1)) (c + 1) (by omega) (by omega) (by omega),
            hdd, greedyPairCount_cons_some hfg]
          congr 1
          rw [decide_eq_decide]
          push_cast
          omega

theorem anchorBody_eq_anchorPass (m : VisitsInIntervalMetric)
    (hm : validConfig m) (t : List ℚ) (ti0 : ℚ) :
    anchorBody m t ti0 = some (anchorPass m t ti0) := by
  obtain ⟨h2, hn, hgap, hle⟩ := hm
  by_cases hv : m.minVisits ≤ ((windowOf m t ti0).length : ℤ)
  · by_cases hd : m.nPairs = 0 ∨ m.minPairGap = 0
    · have hpass : anchorPass m t ti0 = true := by
        rcases hd with hd | hd <;> simp [anchorPass, hv, hd]
      rw [hpass]
      simp [anchorBody, hv, hd]
    · push_neg at hd
      obtain ⟨hn0, hg0⟩ := hd
      have hgpos : 0 < m.minPairGap := lt_of_le_of_ne hgap (Ne.symm hg0)
      have hloop := pairLoop_eq_greedy m (windowOf m t ti0) hgpos
        (windowOf m t ti0).length 0 0 0 le_rfl (by omega) (by omega)
      simp only [List.drop_zero] at hloop
      have hbody : anchorBody m t ti0 =
          pairLoop m (windowOf m t ti0)
            (List.range (windowOf m t ti0).length) 0 0 := by
        simp [anchorBody, hv, hn0, hg0]
      have hpass : anchorPass m t ti0 =
          decide (m.nPairs ≤
            ((greedyPairCount m.minPairGap (windowOf m t ti0) : ℕ) : ℤ)) := by
        simp [anchorPass, hv, hn0, hg0]
      rw [hbody, List.range_eq_range', hloop, hpass]
      congr 1
      rw [decide_eq_decide]
      push_cast
      omega
  · have hpass : anchorPass m t ti0 = false := by
      simp [anchorPass, hv]
    rw [hpass]
    simp [anchorBody, hv]

theorem run_eq_firstAnchor (m : VisitsInIntervalMetric) (hm : validConfig m)
    (ts : List ℚ) (h : ts ≠ []) :
    m.run ts = some (specFirstAnchorEval m ts) := by
  have hlen : (sortTimes ts).length = ts.length :=
    (List.perm_insertionSort _ ts).length_eq
  cases hs : sortTimes ts with
  | nil =>
    exfalso
    apply h
    apply List.eq_nil_of_length_eq_zero
    rw [← hlen, hs]
    rfl
  | cons t0 t' =>
    show anchorLoop m (sortTimes ts) (sortTimes ts) = some (specFirstAnchorEval m ts)
    simp only [specFirstAnchorEval, hs, anchorLoop]
    exact anchorBody_eq_anchorPass m hm (t0 :: t') t0

theorem sublist_of_cons_sublist_cons {a x : ℚ} {s r : List ℚ}
    (h : List.Sublist (a :: s) (x :: r)) : List.Sublist s r := by
  cases h with
  | cons _ h2 => exact ((List.sublist_cons_self a s).trans h2)
  | cons₂ _ h2 => exact h2

theorem sublist_drop_of_forall {P : ℚ → Prop} :
    ∀ (p : List ℚ) {q s : List ℚ}, List.Sublist s (p ++ q) → (∀ e ∈ s, P e) →
      (∀ e ∈ p, ¬ P e) → List.Sublist s q := by
  intro p
  induction p with
  | nil => intro q s h _ _; simpa using h
  | cons d p2 ih =>
    intro q s h hs hp
    cases h with
    | cons _ h2 =>
      exact ih h2 hs (fun e he => hp e (List.mem_cons_of_mem d he))
    | cons₂ _ h2 =>
      exact absurd (hs d (List.mem_cons_self d _)) (hp d (List.mem_cons_self d _))

theorem chain_head_le {gap : ℚ} (hg : 0 < gap) :
    ∀ (l : List ℚ) (b : ℚ), List.Chain' (fun u v => gap ≤ v - u) (b :: l) →
      ∀ e ∈ b :: l, b ≤ e := by
  intro l
  induction l with
  | nil =>
    intro b _ e he
    simp at he
    simp [he]
  | cons b₂ t ih =>
    intro b hchain e he
    rw [List.chain'_cons] at hchain
    obtain ⟨hb, hchain2⟩ := hchain
    have hb12 : b ≤ b₂ := by linarith
    rcases List.mem_cons.mp he with rfl | he2
    · exact le_rfl
    · exact le_trans hb12 (ih b₂ hchain2 e he2)

theorem sorted_head_le {y : ℚ} {t : List ℚ}
    (hs : List.Pairwise (· ≤ ·) (y :: t)) : ∀ e ∈ y :: t, y ≤ e := by
  rw [List.pairwise_cons] at hs
  intro e he
  rcases List.mem_cons.mp he with rfl | he2
  · exact le_rfl
  · exact hs.1 e he2

theorem firstGapIdx_some_take {gap : ℚ} :
    ∀ {l : List ℚ} {k : ℕ}, firstGapIdx gap l = some k →
      ∀ d ∈ l.take k, ¬ gap ≤ d := by
  intro l
  induction l with
  | nil => intro k h; simp [firstGapIdx] at h
  | cons d ds ih =>
    intro k h
    by_cases hd : gap ≤ d
    · simp [firstGapIdx, hd] at h
      subst h
      simp
    · rw [firstGapIdx, if_neg hd, Option.map_eq_some'] at h
      obtain ⟨k0, hk0, hk⟩ := h
      subst hk
      intro e he
      rw [List.take_succ_cons] at he
      rcases List.mem_cons.mp he with rfl | he2
      · exact hd
      · exact ih hk0 e he2

theorem greedyRun_cons_some {gap x : ℚ} {rest : List ℚ} {f k : ℕ}
    (h : firstGapIdx gap (rest.map (fun y => y - x)) = some k) :
    greedyRun gap (f + 1) (x :: rest) = 1 + greedyRun gap f (rest.drop k) := by
  simp only [greedyRun, h]

theorem greedyRun_cons_none {gap x : ℚ} {rest : List ℚ} {f : ℕ}
    (h : firstGapIdx gap (rest.map (fun y => y - x)) = none) :
    greedyRun gap (f + 1) (x :: rest) = greedyRun gap f rest := by
  simp only [greedyRun, h]

theorem greedy_chain_exists {gap : ℚ} :
    ∀ (fuel : ℕ) (w : List ℚ), w.length ≤ fuel → w.Pairwise (· ≤ ·) →
      ∀ n : ℕ, 1 ≤ n → n ≤ greedyRun gap fuel w →
        ∃ c : List ℚ, List.Sublist c w ∧ c.length = n + 1 ∧
          List.Chain' (fun u v => gap ≤ v - u) c := by
  intro fuel
  induction fuel with
  | zero =>
    intro w _ _ n h1 hn
    rw [greedyRun] at hn
    omega
  | succ f ih =>
    intro w hwlen hsort n h1 hn
    cases w with
    | nil =>
      rw [greedyRun] at hn
      omega
    | cons x rest =>
      cases hfg : firstGapIdx gap (rest.map (fun y => y - x)) with
      | none =>
        rw [greedyRun_cons_none hfg] at hn
        obtain ⟨c, hc1, hc2, hc3⟩ :=
          ih rest (by simp at hwlen; omega) hsort.of_cons n h1 hn
        exact ⟨c, hc1.trans (List.sublist_cons_self x rest), hc2, hc3⟩
      | some k =>
        rw [greedyRun_cons_some hfg] at hn
        have hklt : k < rest.length := by
          have := firstGapIdx_some_lt hfg
          simpa using this
        obtain ⟨y, tail, hdk⟩ : ∃ y tail, rest.drop k = y :: tail := by
          cases hd : rest.drop k with
          | nil =>
            exfalso
            have := List.length_drop k rest
            rw [hd] at this
            simp at this
            omega
          | cons a b => exact ⟨a, b, rfl⟩
        have hmapdk : (rest.map (fun z => z - x)).drop k =
            (y - x) :: tail.map (fun z => z - x) := by
          rw [← List.map_drop, hdk, List.map_cons]
        have hgy : gap ≤ y - x := by
          have h0 := firstGapIdx_some_getD hfg
          rw [getD_of_drop_eq_cons hmapdk] at h0
          exact h0
        have hymem : y ∈ rest := by
          have : y ∈ rest.drop k := by
            rw [hdk]
            exact List.mem_cons_self y tail
          exact (List.drop_sublist k rest).subset this
        match n, h1 with
        | 1, _ =>
          refine ⟨[x, y], ?_, rfl, ?_⟩
          · exact List.cons_sublist_cons.mpr (List.singleton_sublist.mpr hymem)
          · rw [List.chain'_cons]
            exact ⟨hgy, List.chain'_singleton y⟩
        | (n2 + 2), _ =>
          have hsortdk : (rest.drop k).Pairwise (· ≤ ·) :=
            hsort.of_cons.sublist (List.drop_sublist k rest)
          have hlendk : (rest.drop k).length ≤ f := by
            have := List.length_drop k rest
            simp at hwlen
            omega
          obtain ⟨c, hc1, hc2, hc3⟩ :=
            ih (rest.drop k) hlendk hsortdk (n2 + 1) (by omega) (by omega)
          cases c with
          | nil => simp at hc2
          | cons b c2 =>
            have hbmem : b ∈ rest.drop k := hc1.subset (List.mem_cons_self b c2)
            have hyb : y ≤ b := by
              rw [hdk] at hbmem
              exact sorted_head_le (hdk ▸ hsortdk) b hbmem
            refine ⟨x :: b :: c2, ?_, ?_, ?_⟩
            · apply List.cons_sublist_cons.mpr
              exact hc1.trans (List.drop_sublist k rest)
            · simp at hc2 ⊢
              omega
            · rw [List.chain'_cons]
              exact ⟨by linarith, hc3⟩

theorem chain_le_greedy {gap : ℚ} (hg : 0 < gap) :
    ∀ (fuel : ℕ) (w : List ℚ), w.length ≤ fuel → w.Pairwise (· ≤ ·) →
      ∀ c : List ℚ, List.Sublist c w →
        List.Chain' (fun u v => gap ≤ v - u) c →
          c.length ≤ greedyRun gap fuel w + 1 := by
  intro fuel
  induction fuel with
  | zero =>
    intro w hwlen _ c hsub _
    have : w = [] := List.eq_nil_of_length_eq_zero (by omega)
    subst this
    rw [List.sublist_nil.mp hsub]
    simp
  | succ f ih =>
    intro w hwlen hsort c hsub hchain
    cases w with
    | nil =>
      rw [List.sublist_nil.mp hsub]
      simp
    | cons x rest =>
      match c, hsub, hchain with
      | [], _, _ => simp
      | [a], _, _ => simp
      | (a :: b :: c2), hsub, hchain =>
        rw [List.chain'_cons] at hchain
        obtain ⟨hab, hchain2⟩ := hchain
        have hamem : a ∈ x :: rest := hsub.subset (List.mem_cons_self a _)
        have hxa : x ≤ a := sorted_head_le hsort a hamem
        have hbx : gap ≤ b - x := by linarith
        have htail : List.Sublist (b :: c2) rest := sublist_of_cons_sublist_cons hsub
        have hbmem : b ∈ rest := htail.subset (List.mem_cons_self b _)
        cases hfg : firstGapIdx gap (rest.map (fun y => y - x)) with
        | none =>
          exfalso
          have := firstGapIdx_none hfg (b - x) (List.mem_map_of_mem _ hbmem)
          exact this hbx
        | some k =>
          have hall : ∀ e ∈ b :: c2, gap ≤ e - x := by
            intro e he
            have hbe : b ≤ e := chain_head_le hg c2 b hchain2 e he
            linarith
          have htake : ∀ e ∈ rest.take k, ¬ gap ≤ e - x := by
            intro e he
            apply firstGapIdx_some_take hfg (e - x)
            rw [← List.map_take]
            exact List.mem_map_of_mem _ he
          have hdk : List.Sublist (b :: c2) (rest.drop k) := by
            apply sublist_drop_of_forall (rest.take k)
              (by rw [List.take_append_drop]; exact htail) hall htake
          have hsortdk : (rest.drop k).Pairwise (· ≤ ·) :=
            hsort.of_cons.sublist (List.drop_sublist k rest)
          have hlendk : (rest.drop k).length ≤ f := by
            have := List.length_drop k rest
            simp at hwlen
            omega
          have hrec := ih (rest.drop k) hlendk hsortdk (b :: c2) hdk hchain2
          rw [greedyRun_cons_some hfg]
          simp at hrec ⊢
          omega

theorem greedyPairCount_mono_sublist {gap : ℚ} (hg : 0 < gap)
    {w w2 : List ℚ} (hsub : List.Sublist w w2)
    (hs : w.Pairwise (· ≤ ·)) (hs2 : w2.Pairwise (· ≤ ·)) :
    greedyPairCount gap w ≤ greedyPairCount gap w2 := by
  cases hzero : greedyPairCount gap w with
  | zero => omega
  | succ n0 =>
    obtain ⟨c, hc1, hc2, hc3⟩ := greedy_chain_exists w.length w le_rfl hs
      (n0 + 1) (by omega) (by show n0 + 1 ≤ greedyPairCount gap w; omega)
    have hb := chain_le_greedy hg w2.length w2 le_rfl hs2 c (hc1.trans hsub) hc3
    have hb2 : c.length ≤ greedyPairCount gap w2 + 1 := hb
    omega

theorem windowOf_sublist_of_le {m : VisitsInIntervalMetric} {L : ℚ}
    (hL : m.intervalLength ≤ L) (t : List ℚ) (t0 : ℚ) :
    List.Sublist (windowOf m t t0)
      (windowOf { m with intervalLength := L } t t0) := by
  apply List.monotone_filter_right
  intro a ha
  simp only [Bool.and_eq_true, decide_eq_true_eq] at ha ⊢
  exact ⟨ha.1, le_trans ha.2 (by linarith)⟩

theorem windowOf_pairwise {m : VisitsInIntervalMetric} {t : List ℚ}
    (ht : t.Pairwise (· ≤ ·)) (t0 : ℚ) :
    (windowOf m t t0).Pairwise (· ≤ ·) :=
  ht.sublist (List.filter_sublist t)

theorem sortTimes_pairwise (ts : List ℚ) :
    (sortTimes ts).Pairwise (· ≤ ·) :=
  List.sorted_insertionSort (· ≤ ·) ts

theorem map_fst_orderedInsert {α : Type} (a : ℚ × α) :
    ∀ l : List (ℚ × α), (List.orderedInsert leFst a l).map Prod.fst =
      List.orderedInsert (· ≤ ·) a.1 (l.map Prod.fst) := by
  intro l
  induction l with
  | nil => rfl
  | cons b t ih =>
    by_cases h : leFst a b
    · simp [List.orderedInsert, h, show a.1 ≤ b.1 from h]
    · have h2 : ¬ a.1 ≤ b.1 := h
      simp [List.orderedInsert, h, h2, ih]

theorem map_fst_sortDataSlice {α : Type} (ds : List (ℚ × α)) :
    (sortDataSlice ds).map Prod.fst = sortTimes (ds.map Prod.fst) := by
  induction ds with
  | nil => rfl
  | cons a t ih =>
    show (List.orderedInsert leFst a (List.insertionSort leFst t)).map Prod.fst = _
    rw [map_fst_orderedInsert]
    show _ = List.orderedInsert (· ≤ ·) a.1 (List.insertionSort (· ≤ ·) (t.map Prod.fst))
    rw [show (List.insertionSort leFst t).map Prod.fst = sortTimes (t.map Prod.fst) from ih]
    rfl

theorem runRecords_eq_run {α : Type} (m : VisitsInIntervalMetric)
    (ds : List (ℚ × α)) : m.runRecords ds = m.run (ds.map Prod.fst) := by
  show anchorLoop m ((sortDataSlice ds).map Prod.fst)
    ((sortDataSlice ds).map Prod.fst) = _
  rw [map_fst_sortDataSlice]
  rfl

theorem sortTimes_eq_nil {ts : List ℚ} (h : sortTimes ts = []) : ts = [] := by
  have hlen := (List.perm_insertionSort (· ≤ ·) ts).length_eq
  rw [show List.insertionSort (· ≤ ·) ts = sortTimes ts from rfl, h] at hlen
  exact List.eq_nil_of_length_eq_zero hlen.symm

theorem run_nil (m : VisitsInIntervalMetric) : m.run [] = none :=
  rfl

/-- Claim C1, counterexample: the claim states that `run` returns `true`
iff SOME anchor has a passing window.  For the valid configuration
`(intervalLength 1, minVisits 2, nPairs 0, minPairGap 0)` and input
`[0, 10, 11]`, the anchor `10` has a passing window (it holds the two
points `10, 11`), so the claimed exists-semantics yields `true`, yet `run`
returns `false`: the `return False` inside the anchor loop body makes it
report the failure of the first anchor `0` without trying any other. -/
theorem claim_C1_counterexample :
    validConfig ⟨1, 2, 0, 0⟩ ∧
      specMultiAnchorEval ⟨1, 2, 0, 0⟩ [0, 10, 11] = true ∧
      VisitsInIntervalMetric.run ⟨1, 2, 0, 0⟩ [0, 10, 11] = some false :=
  ⟨by decide, by decide, by decide⟩

/-- Claim C1, amended: for every valid configuration and non-empty input,
`run` returns `true` iff the single window anchored at the EARLIEST
timestamp contains at least `minVisits` timestamps and, when `nPairs > 0`
and `minPairGap > 0`, the greedy single-pass counter over that window finds
at least `nPairs` pairs; no other anchor is ever consulted. -/
theorem claim_C1_amended (m : VisitsInIntervalMetric) (ts : List ℚ)
    (hm : validConfig m) (hne : ts ≠ []) :
    m.run ts = some true ↔
      (m.minVisits ≤
          ((windowOf m (sortTimes ts) (sortTimes ts).headI).length : ℤ) ∧
        (m.nPairs ≠ 0 → m.minPairGap ≠ 0 →
          m.nPairs ≤ (greedyPairCount m.minPairGap
            (windowOf m (sortTimes ts) (sortTimes ts).headI) : ℤ))) := by
  rw [run_eq_firstAnchor m hm ts hne]
  cases hs : sortTimes ts with
  | nil => exact absurd (sortTimes_eq_nil hs) hne
  | cons t0 t2 =>
    simp only [specFirstAnchorEval, hs, List.headI, Option.some.injEq]
    simp only [anchorPass, Bool.and_eq_true, Bool.or_eq_true, decide_eq_true_eq]
    constructor
    · rintro ⟨hA, hB⟩
      refine ⟨hA, fun hn0 hg0 => ?_⟩
      rcases hB with (h | h) | h
      · exact absurd h hn0
      · exact absurd h hg0
      · exact h
    · rintro ⟨hA, hB⟩
      refine ⟨hA, ?_⟩
      by_cases hn0 : m.nPairs = 0
      · exact Or.inl (Or.inl hn0)
      · by_cases hg0 : m.minPairGap = 0
        · exact Or.inl (Or.inr hg0)
        · exact Or.inr (hB hn0 hg0)

/-- Witness for claim C1 amended at configuration B of the self-test and
the input `[0, 2, 45]`. -/
theorem claim_C1_amended_witness :
    validConfig cfgB ∧ ([0, 2, 45] : List ℚ) ≠ [] ∧
      (cfgB.run [0, 2, 45] = some true ↔
        (cfgB.minVisits ≤
            ((windowOf cfgB (sortTimes [0, 2, 45])
              (sortTimes [0, 2, 45]).headI).length : ℤ) ∧
          (cfgB.nPairs ≠ 0 → cfgB.minPairGap ≠ 0 →
            cfgB.nPairs ≤ (greedyPairCount cfgB.minPairGap
              (windowOf cfgB (sortTimes [0, 2, 45])
                (sortTimes [0, 2, 45]).headI) : ℤ)))) :=
  ⟨by decide, by decide,
    claim_C1_amended cfgB [0, 2, 45] (by decide) (by decide)⟩

/-- Claim C2: for every valid configuration and non-empty input, `run`
returns exactly the pass/fail result of the single window anchored at the
earliest timestamp (the reference first-anchor evaluator of the spec),
returning `false` as soon as that anchor fails without trying any later
anchor. -/
theorem claim_C2_first_anchor_only (m : VisitsInIntervalMetric)
    (ts : List ℚ) (hm : validConfig m) (hne : ts ≠ []) :
    m.run ts = some (specFirstAnchorEval m ts) :=
  run_eq_firstAnchor m hm ts hne

/-- Witness for claim C2 at configuration B and the input `[0, 1, 45]`,
whose first anchor passes `minVisits` but fails the pair check. -/
theorem claim_C2_witness :
    validConfig cfgB ∧ ([0, 1, 45] : List ℚ) ≠ [] ∧
      cfgB.run [0, 1, 45] = some (specFirstAnchorEval cfgB [0, 1, 45]) :=
  ⟨by decide, by decide,
    claim_C2_first_anchor_only cfgB [0, 1, 45] (by decide) (by decide)⟩

/-- Claim C3, counterexample: the claim requires pairwise-disjoint pairs,
hence at least `2 * nPairs` timestamp occurrences in the successful
window, for `run` to return `true`.  Configuration B (`nPairs = 2`) on
`[0, 2, 45]` returns `true` although the successful window holds only
three occurrences, fewer than `2 * nPairs = 4`: the greedy counter chains
the pairs `(0, 2)` and `(2, 45)`, reusing the occurrence `2`. -/
theorem claim_C3_counterexample :
    validConfig cfgB ∧ 0 < cfgB.nPairs ∧ 0 < cfgB.minPairGap ∧
      cfgB.run [0, 2, 45] = some true ∧
      ((windowOf cfgB (sortTimes [0, 2, 45])
        (sortTimes [0, 2, 45]).headI).length : ℤ) < 2 * cfgB.nPairs :=
  ⟨by decide, by decide, by decide, by decide, by decide⟩

/-- Claim C3, amended: when pair checking is enabled, `run` returns `true`
only if the successful window contains at least `nPairs` chronologically
ordered pairs `(a, b)` with `b - a ≥ minPairGap` in which the right
endpoint of one counted pair may serve as the left endpoint of the next:
a chain of `nPairs + 1` occurrences drawn from the window (not `2 * nPairs`
disjoint occurrences). -/
theorem claim_C3_amended (m : VisitsInIntervalMetric) (ts : List ℚ)
    (hm : validConfig m) (hn : 0 < m.nPairs) (hg : 0 < m.minPairGap)
    (hrun : m.run ts = some true) :
    ∃ c : List ℚ,
      List.Sublist c (windowOf m (sortTimes ts) (sortTimes ts).headI) ∧
        (c.length : ℤ) = m.nPairs + 1 ∧
        List.Chain' (fun u v => m.minPairGap ≤ v - u) c := by
  have hne : ts ≠ [] := by
    intro h
    rw [h, run_nil] at hrun
    exact Option.noConfusion hrun
  rw [run_eq_firstAnchor m hm ts hne] at hrun
  have hpass := Option.some.inj hrun
  cases hs : sortTimes ts with
  | nil => exact absurd (sortTimes_eq_nil hs) hne
  | cons t0 t2 =>
    rw [specFirstAnchorEval, hs] at hpass
    simp only [anchorPass, Bool.and_eq_true, Bool.or_eq_true,
      decide_eq_true_eq] at hpass
    have hC : m.nPairs ≤
        (greedyPairCount m.minPairGap (windowOf m (t0 :: t2) t0) : ℤ) := by
      rcases hpass.2 with (h | h) | h
      · omega
      · exact absurd h (by positivity)
      · exact h
    have hw : (windowOf m (t0 :: t2) t0).Pairwise (· ≤ ·) :=
      windowOf_pairwise (hs ▸ sortTimes_pairwise ts) t0
    obtain ⟨c, h1, h2, h3⟩ :=
      greedy_chain_exists (windowOf m (t0 :: t2) t0).length
        (windowOf m (t0 :: t2) t0) le_rfl hw m.nPairs.toNat (by omega)
        (by show m.nPairs.toNat ≤ greedyPairCount m.minPairGap _; omega)
    exact ⟨c, h1, by omega, h3⟩

/-- Witness for claim C3 amended at configuration B and the input
`[0, 2, 45]`. -/
theorem claim_C3_amended_witness :
    validConfig cfgB ∧ 0 < cfgB.nPairs ∧ 0 < cfgB.minPairGap ∧
      cfgB.run [0, 2, 45] = some true ∧
      ∃ c : List ℚ,
        List.Sublist c (windowOf cfgB (sortTimes [0, 2, 45])
          (sortTimes [0, 2, 45]).headI) ∧
          (c.length : ℤ) = cfgB.nPairs + 1 ∧
          List.Chain' (fun u v => cfgB.minPairGap ≤ v - u) c :=
  ⟨by decide, by decide, by decide, by decide,
    claim_C3_amended cfgB [0, 2, 45] (by decide) (by decide) (by decide)
      (by decide)⟩

/-- Claim C4: `run` reproduces the self-test table exactly, for
configuration A = (45, 3, 0, 0) and configuration B = (45, 3, 2, 2) on the
six listed inputs. -/
theorem claim_C4_test_table :
    cfgA.run [0, 1, 2, 5, 40] = some true ∧
      cfgA.run [0, 2, 45] = some true ∧
      cfgA.run [0, 1, 43, 45] = some true ∧
      cfgA.run [0, 1, 2, 3, 4, 5, 45] = some true ∧
      cfgA.run [0, 1, 45] = some true ∧
      cfgA.run [0, 44, 45] = some true ∧
      cfgB.run [0, 1, 2, 5, 40] = some true ∧
      cfgB.run [0, 2, 45] = some true ∧
      cfgB.run [0, 1, 43, 45] = some true ∧
      cfgB.run [0, 1, 2, 3, 4, 5, 45] = some true ∧
      cfgB.run [0, 1, 45] = some false ∧
      cfgB.run [0, 44, 45] = some false := by
  refine ⟨?_, ?_, ?_, ?_, ?_, ?_, ?_, ?_, ?_, ?_, ?_, ?_⟩ <;> decide

/-- Claim C5: on an empty timestamp sequence the anchor loop never runs and
the function falls through to `return result`, a `NameError` on an
undefined name — an unhandled exception (`none`), not the return of
`false` that the specification requires. -/
theorem claim_C5_empty_input (m : VisitsInIntervalMetric) :
    m.run [] = none :=
  rfl

/-- Claim C6: construction succeeds exactly when the configuration
invariants hold, and in particular fails for `minVisits = 1`, for
`nPairs = -1`, for `minPairGap = -1`, and for `nPairs > minVisits + 1`. -/
theorem claim_C6_construction :
    (∀ (L : ℚ) (v n : ℤ) (g : ℚ),
      (VisitsInIntervalMetric.build L v n g).isSome ↔
        (2 ≤ v ∧ 0 ≤ n ∧ 0 ≤ g ∧ n ≤ v + 1)) ∧
      VisitsInIntervalMetric.build 45 1 0 0 = none ∧
      VisitsInIntervalMetric.build 45 3 (-1) 0 = none ∧
      VisitsInIntervalMetric.build 45 3 0 (-1) = none ∧
      VisitsInIntervalMetric.build 45 3 5 0 = none := by
  refine ⟨?_, by decide, by decide, by decide, by decide⟩
  intro L v n g
  unfold VisitsInIntervalMetric.build
  split_ifs with h1 h2 h3 h4 <;> simp_all

/-- Claim C7: monotonicity in `intervalLength` — enlarging the interval
while keeping the other parameters of a valid configuration fixed never
turns a `true` result of `run` into `false`. -/
theorem claim_C7_intervalLength_mono (m : VisitsInIntervalMetric) (L : ℚ)
    (ts : List ℚ) (hm : validConfig m) (hL : m.intervalLength ≤ L)
    (hrun : m.run ts = some true) :
    ({ m with intervalLength := L } : VisitsInIntervalMetric).run ts =
      some true := by
  have hne : ts ≠ [] := by
    intro h
    rw [h, run_nil] at hrun
    exact Option.noConfusion hrun
  have hm2 : validConfig { m with intervalLength := L } := hm
  rw [run_eq_firstAnchor m hm ts hne] at hrun
  rw [run_eq_firstAnchor _ hm2 ts hne]
  have hpass := Option.some.inj hrun
  cases hs : sortTimes ts with
  | nil => exact absurd (sortTimes_eq_nil hs) hne
  | cons t0 t2 =>
    simp only [specFirstAnchorEval, hs] at hpass ⊢
    rw [Option.some_inj]
    simp only [anchorPass, Bool.and_eq_true, Bool.or_eq_true,
      decide_eq_true_eq] at hpass ⊢
    obtain ⟨hA, hB⟩ := hpass
    have hsub := windowOf_sublist_of_le hL (t0 :: t2) t0
    have hlen := hsub.length_le
    refine ⟨?_, ?_⟩
    · show m.minVisits ≤
        ((windowOf { m with intervalLength := L } (t0 :: t2) t0).length : ℤ)
      omega
    by_cases hn0 : m.nPairs = 0
    · exact Or.inl (Or.inl hn0)
    · by_cases hg0 : m.minPairGap = 0
      · exact Or.inl (Or.inr hg0)
      · have hC : m.nPairs ≤
            (greedyPairCount m.minPairGap (windowOf m (t0 :: t2) t0) : ℤ) := by
          rcases hB with (h | h) | h
          · exact absurd h hn0
          · exact absurd h hg0
          · exact h
        have hgpos : 0 < m.minPairGap :=
          lt_of_le_of_ne hm.2.2.1 (Ne.symm hg0)
        have hsorted : (t0 :: t2).Pairwise (· ≤ ·) :=
          hs ▸ sortTimes_pairwise ts
        have hmono := greedyPairCount_mono_sublist hgpos hsub
          (windowOf_pairwise hsorted t0) (windowOf_pairwise hsorted t0)
        refine Or.inr ?_
        show m.nPairs ≤ ((greedyPairCount m.minPairGap
          (windowOf { m with intervalLength := L } (t0 :: t2) t0) : ℕ) : ℤ)
        omega

/-- Witness for claim C7 at configuration B, enlarged interval length 50,
and the input `[0, 2, 45]`. -/
theorem claim_C7_witness :
    validConfig cfgB ∧ cfgB.intervalLength ≤ 50 ∧
      cfgB.run [0, 2, 45] = some true ∧
      ({ cfgB with intervalLength := 50 } : VisitsInIntervalMetric).run
        [0, 2, 45] = some true :=
  ⟨by decide, by decide, by decide,
    claim_C7_intervalLength_mono cfgB 50 [0, 2, 45] (by decide) (by decide)
      (by decide)⟩

/-- Claim C8: monotonicity in `minVisits` — raising `minVisits` while
keeping the other parameters of a valid configuration fixed never turns a
`false` result of `run` into `true`. -/
theorem claim_C8_minVisits_mono (m : VisitsInIntervalMetric) (v : ℤ)
    (ts : List ℚ) (hm : validConfig m) (hv : m.minVisits ≤ v)
    (hrun : m.run ts = some false) :
    ({ m with minVisits := v } : VisitsInIntervalMetric).run ts =
      some false := by
  have hne : ts ≠ [] := by
    intro h
    rw [h, run_nil] at hrun
    exact Option.noConfusion hrun
  have hm2 : validConfig { m with minVisits := v } := by
    obtain ⟨a, b, c, d⟩ := hm
    refine ⟨?_, b, c, ?_⟩
    · show 2 ≤ v
      omega
    · show m.nPairs ≤ v + 1
      omega
  rw [run_eq_firstAnchor m hm ts hne] at hrun
  rw [run_eq_firstAnchor _ hm2 ts hne]
  have hpass := Option.some.inj hrun
  cases hs : sortTimes ts with
  | nil => exact absurd (sortTimes_eq_nil hs) hne
  | cons t0 t2 =>
    simp only [specFirstAnchorEval, hs] at hpass ⊢
    have key : anchorPass { m with minVisits := v } (t0 :: t2) t0 = true →
        anchorPass m (t0 :: t2) t0 = true := by
      simp only [anchorPass, Bool.and_eq_true, Bool.or_eq_true,
        decide_eq_true_eq]
      rintro ⟨hA, hB⟩
      have hA2 : v ≤ ((windowOf m (t0 :: t2) t0).length : ℤ) := hA
      exact ⟨by omega, hB⟩
    cases h2 : anchorPass { m with minVisits := v } (t0 :: t2) t0 with
    | false => rfl
    | true =>
      exfalso
      rw [key h2] at hpass
      exact Bool.noConfusion hpass

/-- Witness for claim C8 at configuration B, raised `minVisits` 4, and the
input `[0, 1, 45]`. -/
theorem claim_C8_witness :
    validConfig cfgB ∧ cfgB.minVisits ≤ 4 ∧
      cfgB.run [0, 1, 45] = some false ∧
      ({ cfgB with minVisits := 4 } : VisitsInIntervalMetric).run
        [0, 1, 45] = some false :=
  ⟨by decide, by decide, by decide,
    claim_C8_minVisits_mono cfgB 4 [0, 1, 45] (by decide) (by decide)
      (by decide)⟩

/-- Claim C9: internal safety — for every valid configuration and
non-empty input the diagonal assertion of the pair loop always holds (the
scan index equals `pairStart` whenever it is evaluated) and `run` returns
a boolean from inside the anchor loop, never reaching the undefined-name
`return result`: the result is `some b` for some boolean `b`, never
`none`. -/
theorem claim_C9_internal_safety (m : VisitsInIntervalMetric)
    (ts : List ℚ) (hm : validConfig m) (hne : ts ≠ []) :
    ∃ b : Bool, m.run ts = some b :=
  ⟨specFirstAnchorEval m ts, run_eq_firstAnchor m hm ts hne⟩

/-- Witness for claim C9 at configuration B and the input `[0, 1, 45]`. -/
theorem claim_C9_witness :
    validConfig cfgB ∧ ([0, 1, 45] : List ℚ) ≠ [] ∧
      ∃ b : Bool, cfgB.run [0, 1, 45] = some b :=
  ⟨by decide, by decide,
    claim_C9_internal_safety cfgB [0, 1, 45] (by decide) (by decide)⟩

/-- Claim C10: frame effect of the in-place sort — after any call of
`run`, the caller's record array holds the same multiset of records
permuted into ascending order of the timestamp field (no record added,
removed or modified), and the evaluation itself is computed from exactly
that sorted state of the array. -/
theorem claim_C10_frame_effect :
    ∀ (α : Type) (ds : List (ℚ × α)),
      List.Perm (sortDataSlice ds) ds ∧
        List.Pairwise (fun a b : ℚ × α => a.1 ≤ b.1) (sortDataSlice ds) ∧
        ∀ m : VisitsInIntervalMetric,
          m.runRecords ds = m.run (ds.map Prod.fst) := by
  intro α ds
  exact ⟨List.perm_insertionSort leFst ds,
    List.sorted_insertionSort leFst ds,
    fun m => runRecords_eq_run m ds⟩
